import Mathlib

/-!
Verification development for the "take-it-out-back" process manager.

The TypeScript sources are shallowly embedded:
- `processModel` (data model, `parseEtime`, `buildSnapshot`, `diffSnapshots`),
- `ProcessController` (signal classification, descendant closure, subtree kill),
- `ProcessTreeProvider` (visibility filtering, path trie, chain collapsing),
- `ProcessPoller.parseLine` (fixed-count tokenization of `ps` lines).

JavaScript `Map`s are embedded as insertion-ordered association lists,
JavaScript numbers as `Int`/`Rat`, and the imperative DFS loop of
`getDescendants` as a fuel-indexed step function (the fuel only makes the
possible divergence of the source loop observable; `none` means the loop
has not finished within the given number of iterations).
-/

-- ─── JavaScript primitives ──────────────────────────────────────────

/-- Characters matched by JavaScript's whitespace class. -/
def isJsSpace (c : Char) : Bool :=
  decide (c = ' ') || decide (c = '\t') || decide (c = '\n') || decide (c = '\r')
    || decide (c = Char.ofNat 11) || decide (c = Char.ofNat 12)

/-- Leading decimal digits of a character list. -/
def takeDigits (cs : List Char) : List Char :=
  cs.takeWhile (fun c => c.isDigit)

/-- Value of a list of decimal digits. -/
def digitsToNat (ds : List Char) : Nat :=
  ds.foldl (fun acc c => acc * 10 + (c.toNat - '0'.toNat)) 0

/-- JavaScript `parseInt(s, 10)`: skip leading whitespace, optional sign,
longest run of digits; `none` models `NaN`. -/
def jsParseInt (s : String) : Option Int :=
  let cs := s.toList.dropWhile (fun c => isJsSpace c)
  let signAndRest : Int × List Char :=
    match cs with
    | '-' :: t => (-1, t)
    | '+' :: t => (1, t)
    | t => (1, t)
  let ds := takeDigits signAndRest.2
  if ds.isEmpty then none else some (signAndRest.1 * digitsToNat ds)

/-- JavaScript `parseInt(s, 10) || 0` (both `NaN` and `0` give `0`). -/
def jsParseIntOr0 (s : String) : Int :=
  (jsParseInt s).getD 0

/-- JavaScript `parseFloat(s) || 0` on sign/digits/fraction forms
(the shapes `ps` emits for cpu percentages). -/
def jsParseFloatOr0 (s : String) : Rat :=
  let cs := s.toList.dropWhile (fun c => isJsSpace c)
  let signAndRest : Rat × List Char :=
    match cs with
    | '-' :: t => (-1, t)
    | '+' :: t => (1, t)
    | t => (1, t)
  let intPart := takeDigits signAndRest.2
  let afterInt := signAndRest.2.drop intPart.length
  let frac :=
    match afterInt with
    | '.' :: t => takeDigits t
    | _ => []
  if intPart.isEmpty ∧ frac.isEmpty then 0
  else signAndRest.1 * ((digitsToNat intPart : Rat) + (digitsToNat frac : Rat) / (10 ^ frac.length))

/-- JavaScript `String.prototype.trim` (ASCII whitespace at both ends). -/
def jsTrim (cs : List Char) : List Char :=
  ((cs.dropWhile (fun c => isJsSpace c)).reverse.dropWhile (fun c => isJsSpace c)).reverse

/-- Split before the first occurrence of `c`; `none` when `c` is absent
(JavaScript `indexOf` returning `-1`). -/
def breakOnFirst (c : Char) : List Char → Option (List Char × List Char)
  | [] => none
  | x :: t =>
    if x = c then some ([], t)
    else (breakOnFirst c t).map (fun p => (x :: p.1, p.2))

/-- JavaScript `String.prototype.split` with a single-character separator:
keeps empty pieces, `[[]]` on the empty string. -/
def splitOnChar (sep : Char) : List Char → List (List Char)
  | [] => [[]]
  | c :: t =>
    let r := splitOnChar sep t
    if c = sep then [] :: r
    else
      match r with
      | [] => [[c]]
      | h :: rest => (c :: h) :: rest

/-- Whether `pat` is a leading piece of `s` (JavaScript-style, by characters). -/
def leadsWith : List Char → List Char → Bool
  | [], _ => true
  | _ :: _, [] => false
  | a :: as, b :: bs => decide (a = b) && leadsWith as bs

/-- JavaScript `String.prototype.includes` over character lists. -/
def hasSubstr (pat : List Char) : List Char → Bool
  | [] => leadsWith pat []
  | c :: t => leadsWith pat (c :: t) || hasSubstr pat t

-- ─── Association lists embedding JavaScript Map ─────────────────────

/-- JavaScript `Map.prototype.get`. -/
def alistGet {κ α : Type} [DecidableEq κ] (m : List (κ × α)) (k : κ) : Option α :=
  (m.find? (fun kv => decide (kv.1 = k))).map (fun kv => kv.2)

/-- JavaScript `Map.prototype.set`: overwrite in place, or append a new key. -/
def alistSet {κ α : Type} [DecidableEq κ] (m : List (κ × α)) (k : κ) (v : α) : List (κ × α) :=
  if m.any (fun kv => decide (kv.1 = k)) then
    m.map (fun kv => if kv.1 = k then (k, v) else kv)
  else m ++ [(k, v)]

-- ─── processModel.ts: data model ────────────────────────────────────

/-- Normalized representation of a single OS process (`ProcessInfo`). -/
structure ProcessInfo where
  pid : Int
  ppid : Int
  pgid : Int
  user : String
  cpu : Rat
  rss : Int
  etime : String
  etimeSeconds : Int
  command : String
  args : String
deriving DecidableEq

/-- A complete snapshot of all processes at a point in time (`ProcessSnapshot`). -/
structure ProcessSnapshot where
  timestamp : Int
  processes : List ProcessInfo
  byPid : List (Int × ProcessInfo)
  childrenByPpid : List (Int × List Int)
  pidsByPgid : List (Int × List Int)
deriving DecidableEq

/-- Events emitted when the process list changes between snapshots. -/
inductive ProcessEventType where
  | added
  | removed
  | updated
deriving DecidableEq

/-- A change event over a (current, optional-previous) record pair. -/
structure ProcessEvent where
  type : ProcessEventType
  process : ProcessInfo
  previous : Option ProcessInfo
deriving DecidableEq

/-- `parseEtime`: parse a `ps` elapsed-time token (`ss`, `mm:ss`, `hh:mm:ss`,
`dd-hh:mm:ss`) into total seconds, defaulting non-numeric components to 0. -/
def parseEtime (etime : String) : Int :=
  let trimmed := jsTrim etime.toList
  let daysRest : Int × List Char :=
    match breakOnFirst '-' trimmed with
    | some p => (jsParseIntOr0 (String.mk p.1), p.2)
    | none => (0, trimmed)
  let parts := (splitOnChar ':' daysRest.2).map (fun p => jsParseIntOr0 (String.mk p))
  let hms : Int × Int × Int :=
    match parts with
    | [h, m, s] => (h, m, s)
    | [m, s] => (0, m, s)
    | [s] => (0, 0, s)
    | _ => (0, 0, 0)
  daysRest.1 * 86400 + hms.1 * 3600 + hms.2.1 * 60 + hms.2.2

/-- `buildSnapshot`: build the derived indexes from a flat record list
(the `Date.now()` timestamp is passed in by the caller). -/
def buildSnapshot (ts : Int) (processes : List ProcessInfo) : ProcessSnapshot :=
  let step := fun (acc : List (Int × ProcessInfo) × List (Int × List Int) × List (Int × List Int))
      (p : ProcessInfo) =>
    let byPid := alistSet acc.1 p.pid p
    let chm :=
      match alistGet acc.2.1 p.ppid with
      | some siblings => alistSet acc.2.1 p.ppid (siblings ++ [p.pid])
      | none => alistSet acc.2.1 p.ppid [p.pid]
    let pgm :=
      match alistGet acc.2.2 p.pgid with
      | some members => alistSet acc.2.2 p.pgid (members ++ [p.pid])
      | none => alistSet acc.2.2 p.pgid [p.pid]
    (byPid, chm, pgm)
  let built := processes.foldl step ([], [], [])
  ⟨ts, processes, built.1, built.2.1, built.2.2⟩

-- ─── processModel.ts: diffSnapshots ─────────────────────────────────

/-- First pass of `diffSnapshots`: Added/Updated events over the new records. -/
def diffAddedUpdated (oldByPid : List (Int × ProcessInfo)) (newProcs : List ProcessInfo) :
    List ProcessEvent :=
  newProcs.filterMap (fun p =>
    match alistGet oldByPid p.pid with
    | none => some ⟨.added, p, none⟩
    | some old =>
      if old.cpu ≠ p.cpu ∨ old.rss ≠ p.rss ∨ old.etime ≠ p.etime then
        some ⟨.updated, p, some old⟩
      else none)

/-- Second pass of `diffSnapshots`: Removed events over the old records. -/
def diffRemoved (newByPid : List (Int × ProcessInfo)) (oldProcs : List ProcessInfo) :
    List ProcessEvent :=
  oldProcs.filterMap (fun p =>
    if (alistGet newByPid p.pid).isSome then none
    else some ⟨.removed, p, none⟩)

/-- `diffSnapshots`: diff two snapshots into a list of process events;
an absent old snapshot makes every new record an Added event. -/
def diffSnapshots (oldSnap : Option ProcessSnapshot) (newSnap : ProcessSnapshot) :
    List ProcessEvent :=
  match oldSnap with
  | none => newSnap.processes.map (fun p => ⟨.added, p, none⟩)
  | some old => diffAddedUpdated old.byPid newSnap.processes ++ diffRemoved newSnap.byPid old.processes

/-- Processes carried by the events of a given type. -/
def eventProcesses (t : ProcessEventType) (evs : List ProcessEvent) : List ProcessInfo :=
  (evs.filter (fun e => decide (e.type = t))).map (fun e => e.process)

/-- The pids present in a snapshot's record list. -/
def snapshotPids (s : ProcessSnapshot) : List Int :=
  s.processes.map (fun p => p.pid)

/-- Membership in the symmetric difference of two snapshots' pid sets. -/
def inSymmDiff (a b : ProcessSnapshot) (i : Int) : Bool :=
  xor (decide (i ∈ snapshotPids a)) (decide (i ∈ snapshotPids b))

-- ─── Diff lemmas ────────────────────────────────────────────────────

theorem eventProcesses_append (t : ProcessEventType) (a b : List ProcessEvent) :
    eventProcesses t (a ++ b) = eventProcesses t a ++ eventProcesses t b := by
  simp [eventProcesses]

theorem eventProcesses_eq_nil (t : ProcessEventType) (evs : List ProcessEvent)
    (h : ∀ e ∈ evs, e.type ≠ t) : eventProcesses t evs = [] := by
  have hfil : evs.filter (fun e => decide (e.type = t)) = [] := by
    rw [List.filter_eq_nil_iff]
    intro e he
    simpa using h e he
  simp [eventProcesses, hfil]

theorem diffAddedUpdated_types (ob : List (Int × ProcessInfo)) (new : List ProcessInfo) :
    ∀ e ∈ diffAddedUpdated ob new,
      e.type = ProcessEventType.added ∨ e.type = ProcessEventType.updated := by
  intro e he
  simp only [diffAddedUpdated, List.mem_filterMap] at he
  obtain ⟨p, _, hp⟩ := he
  cases halist : alistGet ob p.pid with
  | none =>
    simp only [halist] at hp
    cases hp
    exact Or.inl rfl
  | some o =>
    simp only [halist] at hp
    by_cases hcond : o.cpu ≠ p.cpu ∨ o.rss ≠ p.rss ∨ o.etime ≠ p.etime
    · rw [if_pos hcond] at hp
      cases hp
      exact Or.inr rfl
    · rw [if_neg hcond] at hp
      cases hp

theorem diffRemoved_types (nb : List (Int × ProcessInfo)) (old : List ProcessInfo) :
    ∀ e ∈ diffRemoved nb old, e.type = ProcessEventType.removed := by
  intro e he
  simp only [diffRemoved, List.mem_filterMap] at he
  obtain ⟨p, _, hp⟩ := he
  by_cases hcond : (alistGet nb p.pid).isSome
  · simp [hcond] at hp
  · simp only [hcond, Bool.false_eq_true, if_false, Option.some.injEq] at hp
    rw [← hp]

theorem eventProcesses_removed_diffRemoved (nb : List (Int × ProcessInfo))
    (old : List ProcessInfo) :
    eventProcesses ProcessEventType.removed (diffRemoved nb old)
      = old.filter (fun p => !(alistGet nb p.pid).isSome) := by
  induction old with
  | nil => rfl
  | cons p ps ih =>
    cases halist : alistGet nb p.pid with
    | none =>
      simpa [diffRemoved, List.filterMap_cons, halist, List.filter_cons, eventProcesses] using ih
    | some v =>
      simpa [diffRemoved, List.filterMap_cons, halist, List.filter_cons, eventProcesses] using ih

theorem eventProcesses_added_diffAddedUpdated (ob : List (Int × ProcessInfo))
    (new : List ProcessInfo) :
    eventProcesses ProcessEventType.added (diffAddedUpdated ob new)
      = new.filter (fun p => !(alistGet ob p.pid).isSome) := by
  induction new with
  | nil => rfl
  | cons p ps ih =>
    cases halist : alistGet ob p.pid with
    | none =>
      simpa [diffAddedUpdated, List.filterMap_cons, halist, List.filter_cons,
        eventProcesses] using ih
    | some o =>
      by_cases hcond : o.cpu ≠ p.cpu ∨ o.rss ≠ p.rss ∨ o.etime ≠ p.etime
      · simpa [diffAddedUpdated, List.filterMap_cons, halist, hcond, List.filter_cons,
          eventProcesses] using ih
      · simpa [diffAddedUpdated, List.filterMap_cons, halist, hcond, List.filter_cons,
          eventProcesses] using ih

-- ─── Claim C6: elapsed-time parser values ───────────────────────────

/-- C6 counterexample: the claim asserts `parseEtime "2-03:04:05" = 187445`,
but the parser computes 2·86400 + 3·3600 + 4·60 + 5 = 183845. -/
theorem parseEtime_day_form_ne_claimed_value : parseEtime "2-03:04:05" ≠ 187445 := by decide

/-- C6 amended: the elapsed-time parser returns total whole seconds for the
four token forms — `"45" = 45`, `"02:30" = 150`, `"01:02:03" = 3723`,
`"2-03:04:05" = 183845` — and the malformed token `"xx:05"` parses to 5
(non-numeric component treated as 0). -/
theorem parseEtime_token_values :
    parseEtime "45" = 45 ∧ parseEtime "02:30" = 150 ∧ parseEtime "01:02:03" = 3723 ∧
      parseEtime "2-03:04:05" = 183845 ∧ parseEtime "xx:05" = 5 := by
  exact ⟨by decide, by decide, by decide, by decide, by decide⟩

-- ─── Claim C7: diffing an absent snapshot ───────────────────────────

/-- C7: diffing `undefined` against any snapshot S yields exactly one Added
event per record of S — the event list is the record list tagged Added — so
there are `|S|` events in total and no Removed or Updated events. -/
theorem diff_absent_old_all_added (s : ProcessSnapshot) :
    diffSnapshots none s = s.processes.map (fun p => ⟨ProcessEventType.added, p, none⟩) ∧
      (diffSnapshots none s).length = s.processes.length ∧
      ∀ e ∈ diffSnapshots none s, e.type = ProcessEventType.added := by
  refine ⟨rfl, by simp [diffSnapshots], ?_⟩
  intro e he
  simp only [diffSnapshots, List.mem_map] at he
  obtain ⟨p, -, rfl⟩ := he
  rfl

-- ─── Claim C8: Removed/Added symmetry of the diff ───────────────────

/-- C8: the processes carried by the Removed events of `diffSnapshots A B`,
restricted to pids in the symmetric difference of the two snapshots' pid
sets, coincide with the processes carried by the Added events of
`diffSnapshots B A` under the same restriction. -/
theorem diff_removed_added_symmetry (a b : ProcessSnapshot) :
    (eventProcesses ProcessEventType.removed (diffSnapshots (some a) b)).filter
        (fun p => inSymmDiff a b p.pid)
      = (eventProcesses ProcessEventType.added (diffSnapshots (some b) a)).filter
        (fun p => inSymmDiff a b p.pid) := by
  have hrem : eventProcesses ProcessEventType.removed (diffSnapshots (some a) b)
      = a.processes.filter (fun p => !(alistGet b.byPid p.pid).isSome) := by
    rw [diffSnapshots, eventProcesses_append,
      eventProcesses_eq_nil ProcessEventType.removed (diffAddedUpdated a.byPid b.processes)
        (by intro e he; rcases diffAddedUpdated_types a.byPid b.processes e he with h | h <;>
          simp [h]),
      eventProcesses_removed_diffRemoved]
    simp
  have hadd : eventProcesses ProcessEventType.added (diffSnapshots (some b) a)
      = a.processes.filter (fun p => !(alistGet b.byPid p.pid).isSome) := by
    rw [diffSnapshots, eventProcesses_append,
      eventProcesses_eq_nil ProcessEventType.added (diffRemoved a.byPid b.processes)
        (by intro e he; simp [diffRemoved_types a.byPid b.processes e he]),
      eventProcesses_added_diffAddedUpdated]
    simp
  rw [hrem, hadd]

-- ─── ProcessController: signal dispatch ─────────────────────────────

/-- Outcome of the underlying `process.kill` call: success, or the three
error families the controller distinguishes by message content. -/
inductive SignalOutcome where
  | ok
  | esrch
  | eperm
  | otherErr (msg : String)
deriving DecidableEq

/-- The character list of the `ESRCH` marker searched for in error messages. -/
def esrchMarker : List Char := ['E', 'S', 'R', 'C', 'H']

/-- The error message surfaced by `process.kill` for each outcome
(`none` on success); Node.js embeds the errno name in the message. -/
def outcomeMessage : SignalOutcome → Option String
  | .ok => none
  | .esrch => some "kill ESRCH"
  | .eperm => some "kill EPERM"
  | .otherErr msg => some msg

/-- `ProcessController.sendSignal`: `true` on success and on messages
containing `ESRCH` (process already exited), `false` otherwise.
The signal name is carried but does not influence the result. -/
def sendSignal (_signalName : String) (o : SignalOutcome) : Bool :=
  match outcomeMessage o with
  | none => true
  | some msg =>
    if hasSubstr esrchMarker msg.toList then true
    else false

/-- `ProcessController.terminatePid` with confirmation disabled: SIGTERM. -/
def terminatePid (o : SignalOutcome) : Bool :=
  sendSignal "SIGTERM" o

/-- `ProcessController.forceKillPid` with confirmation disabled: SIGKILL. -/
def forceKillPid (o : SignalOutcome) : Bool :=
  sendSignal "SIGKILL" o

-- ─── ProcessController: descendant closure ──────────────────────────

/-- `snapshot.childrenByPpid.get(current) || []`. -/
def childrenOf (m : List (Int × List Int)) (p : Int) : List Int :=
  (alistGet m p).getD []

/-- One-iteration-per-fuel-unit embedding of the `getDescendants` stack
loop. The head of `stack` is the top (the JavaScript array's last slot);
children are pushed in order, so the last child ends on top. `none` means
the loop is still running after `fuel` iterations. -/
def descLoop (children : Int → List Int) : Nat → List Int → List Int → Option (List Int)
  | _, [], result => some result
  | 0, _ :: _, _ => none
  | fuel + 1, current :: rest, result =>
    descLoop children fuel ((children current).reverse ++ rest) (result ++ children current)

/-- `ProcessController.getDescendants`: collect all descendant pids of
`pid` using the children-by-ppid index. -/
def getDescendants (pid : Int) (snap : ProcessSnapshot) (fuel : Nat) : Option (List Int) :=
  descLoop (childrenOf snap.childrenByPpid) fuel [pid] []

/-- One signalling step of `terminateSubtree`: record the target pid in the
trace and fold its result into the running `allOk` flag. -/
def killStep (sig : Int → SignalOutcome) (st : List Int × Bool) (p : Int) : List Int × Bool :=
  (st.1 ++ [p], st.2 && sendSignal "SIGTERM" (sig p))

/-- `ProcessController.terminateSubtree` with confirmation disabled:
signal the reversed descendant list, then the target itself, returning the
ordered signal trace and the aggregate success flag. `sig` tells how the
OS responds to signalling each pid. -/
def terminateSubtree (pid : Int) (snap : ProcessSnapshot) (sig : Int → SignalOutcome)
    (fuel : Nat) : Option (List Int × Bool) :=
  match getDescendants pid snap fuel with
  | none => none
  | some descendants =>
    some (killStep sig (descendants.reverse.foldl (killStep sig) ([], true)) pid)

/-- Proper descendants of a process per a children index: the transitive
closure of the child relation. -/
inductive Descendant (children : Int → List Int) : Int → Int → Prop
  | child : ∀ {p c}, c ∈ children p → Descendant children p c
  | step : ∀ {p q c}, Descendant children p q → c ∈ children q → Descendant children p c

/-- A rank function witnessing acyclicity of a children index: ranks drop
strictly from parent to child. -/
def IsRanking (children : Int → List Int) (rank : Int → Nat) : Prop :=
  ∀ p c, c ∈ children p → rank c < rank p

/-- Fuel-bounded size of the subtree rooted at a pid (an upper bound on the
number of loop iterations spent on it). -/
def sizeAux (children : Int → List Int) : Nat → Int → Nat
  | 0, _ => 1
  | n + 1, p => 1 + ((children p).map (sizeAux children n)).sum

/-- Total remaining loop iterations needed for a stack, under a rank. -/
def stackWeight (children : Int → List Int) (rank : Int → Nat) (st : List Int) : Nat :=
  (st.map (fun p => sizeAux children (rank p) p)).sum

-- ─── Descendant-loop lemmas ─────────────────────────────────────────

theorem descLoop_nil (ch : Int → List Int) (fuel : Nat) (res : List Int) :
    descLoop ch fuel [] res = some res := by
  cases fuel <;> rfl

theorem descLoop_prefix (ch : Int → List Int) :
    ∀ (fuel : Nat) (st res out : List Int), descLoop ch fuel st res = some out →
      ∃ suf, out = res ++ suf := by
  intro fuel
  induction fuel with
  | zero =>
    intro st res out h
    cases st with
    | nil =>
      rw [descLoop_nil] at h
      exact ⟨[], by simpa using (Option.some.inj h).symm⟩
    | cons cur rest => exact absurd h (by simp [descLoop])
  | succ n ih =>
    intro st res out h
    cases st with
    | nil =>
      rw [descLoop_nil] at h
      exact ⟨[], by simpa using (Option.some.inj h).symm⟩
    | cons cur rest =>
      rw [descLoop] at h
      obtain ⟨suf, hs⟩ := ih _ _ _ h
      exact ⟨ch cur ++ suf, by simpa [List.append_assoc] using hs⟩

/-- Every occurrence of a pid in the result list is followed by all of that
pid's children (a pid is recorded when pushed, expanded when popped later). -/
def childClosed (ch : Int → List Int) (out : List Int) : Prop :=
  ∀ l1 p l2, out = l1 ++ p :: l2 → ∀ c ∈ ch p, c ∈ l2

theorem descLoop_childClosed (ch : Int → List Int) :
    ∀ (fuel : Nat) (st res out : List Int), descLoop ch fuel st res = some out →
      (∀ l1 p l2, res = l1 ++ p :: l2 → (∀ c ∈ ch p, c ∈ l2) ∨ p ∈ st) →
      childClosed ch out := by
  intro fuel
  induction fuel with
  | zero =>
    intro st res out h hpre
    cases st with
    | nil =>
      rw [descLoop_nil] at h
      intro l1 p l2 hsplit c hc
      rcases hpre l1 p l2 (by rw [Option.some.inj h]; exact hsplit) with hok | habs
      · exact hok c hc
      · exact absurd habs (by simp)
    | cons cur rest => exact absurd h (by simp [descLoop])
  | succ n ih =>
    intro st res out h hpre
    cases st with
    | nil =>
      rw [descLoop_nil] at h
      intro l1 p l2 hsplit c hc
      rcases hpre l1 p l2 (by rw [Option.some.inj h]; exact hsplit) with hok | habs
      · exact hok c hc
      · exact absurd habs (by simp)
    | cons cur rest =>
      rw [descLoop] at h
      refine ih _ _ _ h ?_
      intro l1 p l2 hsplit
      rcases List.append_eq_append_iff.mp hsplit with ⟨a2, ha1, ha2⟩ | ⟨c2, hc1, hc2⟩
      · -- the occurrence of p lies inside the freshly appended children of cur
        right
        have hp : p ∈ ch cur := by
          rw [ha2]
          exact List.mem_append_right _ (List.mem_cons_self _ _)
        exact List.mem_append_left _ (List.mem_reverse.mpr hp)
      · cases c2 with
        | nil =>
          right
          simp only [List.nil_append] at hc2
          have hp : p ∈ ch cur := by
            rw [← hc2]
            exact List.mem_cons_self _ _
          exact List.mem_append_left _ (List.mem_reverse.mpr hp)
        | cons q c3 =>
          have h2 : p = q ∧ l2 = c3 ++ ch cur := by
            simpa using hc2
          obtain ⟨rfl, hl2⟩ := h2
          rcases hpre l1 p c3 hc1 with hok | hmem
          · left
            intro c hc
            rw [hl2]
            exact List.mem_append_left _ (hok c hc)
          · rcases List.mem_cons.mp hmem with rfl | hrest
            · left
              intro c hc
              rw [hl2]
              exact List.mem_append_right _ hc
            · right
              exact List.mem_append_right _ hrest

theorem sizeAux_pos (ch : Int → List Int) (n : Nat) (p : Int) : 1 ≤ sizeAux ch n p := by
  cases n <;> simp [sizeAux]

theorem sizeAux_mono (ch : Int → List Int) :
    ∀ (n m : Nat) (p : Int), m ≤ n → sizeAux ch m p ≤ sizeAux ch n p := by
  intro n
  induction n with
  | zero =>
    intro m p hm
    interval_cases m
    exact le_rfl
  | succ k ih =>
    intro m p hm
    cases m with
    | zero => exact le_trans (by simp [sizeAux]) (sizeAux_pos ch (k + 1) p)
    | succ j =>
      simp only [sizeAux]
      have hsum : ((ch p).map (sizeAux ch j)).sum ≤ ((ch p).map (sizeAux ch k)).sum :=
        List.sum_le_sum (fun c _ => ih j c (Nat.succ_le_succ_iff.mp hm))
      omega

theorem sizeAux_children_lt (ch : Int → List Int) (rank : Int → Nat)
    (hrank : IsRanking ch rank) (cur : Int) :
    ((ch cur).map (fun c => sizeAux ch (rank c) c)).sum < sizeAux ch (rank cur) cur := by
  cases hr : rank cur with
  | zero =>
    have hnil : ch cur = [] := by
      cases hch : ch cur with
      | nil => rfl
      | cons c t =>
        have := hrank cur c (by rw [hch]; exact List.mem_cons_self _ _)
        omega
    simp [hnil, sizeAux]
  | succ k =>
    have hsum : ((ch cur).map (fun c => sizeAux ch (rank c) c)).sum
        ≤ ((ch cur).map (sizeAux ch k)).sum := by
      refine List.sum_le_sum ?_
      intro c hc
      have hlt := hrank cur c hc
      exact sizeAux_mono ch k (rank c) c (by omega)
    simp only [sizeAux]
    omega

theorem stackWeight_cons (ch : Int → List Int) (rank : Int → Nat) (p : Int) (st : List Int) :
    stackWeight ch rank (p :: st) = sizeAux ch (rank p) p + stackWeight ch rank st := by
  simp [stackWeight]

theorem stackWeight_children (ch : Int → List Int) (rank : Int → Nat) (cur : Int)
    (rest : List Int) :
    stackWeight ch rank ((ch cur).reverse ++ rest)
      = ((ch cur).map (fun c => sizeAux ch (rank c) c)).sum + stackWeight ch rank rest := by
  simp [stackWeight, List.map_reverse, List.sum_reverse]

theorem descLoop_terminates (ch : Int → List Int) (rank : Int → Nat)
    (hrank : IsRanking ch rank) :
    ∀ (fuel : Nat) (st res : List Int), stackWeight ch rank st ≤ fuel →
      ∃ out, descLoop ch fuel st res = some out := by
  intro fuel
  induction fuel with
  | zero =>
    intro st res hw
    cases st with
    | nil => exact ⟨res, rfl⟩
    | cons cur rest =>
      rw [stackWeight_cons] at hw
      have := sizeAux_pos ch (rank cur) cur
      omega
  | succ n ih =>
    intro st res hw
    cases st with
    | nil => exact ⟨res, rfl⟩
    | cons cur rest =>
      rw [descLoop]
      refine ih _ _ ?_
      rw [stackWeight_children]
      rw [stackWeight_cons] at hw
      have := sizeAux_children_lt ch rank hrank cur
      omega

-- ─── Closure membership and terminateSubtree structure ──────────────

theorem getDescendants_root_children (pid : Int) (snap : ProcessSnapshot) (fuel : Nat)
    (ds : List Int) (h : getDescendants pid snap fuel = some ds) :
    ∀ c ∈ childrenOf snap.childrenByPpid pid, c ∈ ds := by
  cases fuel with
  | zero => exact absurd h (by simp [getDescendants, descLoop])
  | succ n =>
    rw [getDescendants, descLoop] at h
    obtain ⟨suf, hs⟩ := descLoop_prefix _ _ _ _ _ h
    intro c hc
    rw [hs]
    simp only [List.nil_append]
    exact List.mem_append_left _ hc

theorem getDescendants_childClosed (pid : Int) (snap : ProcessSnapshot) (fuel : Nat)
    (ds : List Int) (h : getDescendants pid snap fuel = some ds) :
    childClosed (childrenOf snap.childrenByPpid) ds := by
  refine descLoop_childClosed _ _ _ _ _ h ?_
  intro l1 p l2 hsplit
  exact absurd hsplit (by simp)

theorem childClosed_mem (ch : Int → List Int) (ds : List Int) (hcc : childClosed ch ds)
    (q : Int) (hq : q ∈ ds) : ∀ c ∈ ch q, c ∈ ds := by
  obtain ⟨s, t, hst⟩ := List.append_of_mem hq
  intro c hc
  rw [hst]
  exact List.mem_append_right _ (List.mem_cons_of_mem _ (hcc s q t hst c hc))

theorem getDescendants_complete (pid : Int) (snap : ProcessSnapshot) (fuel : Nat)
    (ds : List Int) (h : getDescendants pid snap fuel = some ds) :
    ∀ c, Descendant (childrenOf snap.childrenByPpid) pid c → c ∈ ds := by
  intro c hc
  induction hc with
  | child hmem => exact getDescendants_root_children pid snap fuel ds h _ hmem
  | step hdesc hmem ih =>
    exact childClosed_mem _ ds (getDescendants_childClosed pid snap fuel ds h) _ ih _ hmem

theorem foldl_killStep (sig : Int → SignalOutcome) :
    ∀ (l acc : List Int) (b : Bool),
      l.foldl (killStep sig) (acc, b)
        = (acc ++ l, b && l.all (fun p => sendSignal "SIGTERM" (sig p))) := by
  intro l
  induction l with
  | nil => intro acc b; simp
  | cons p ps ih =>
    intro acc b
    simp [List.foldl_cons, killStep, ih, Bool.and_assoc]

theorem sendSignal_eq_true_iff (signalName : String) (o : SignalOutcome)
    (h : ∀ m, o = SignalOutcome.otherErr m → hasSubstr esrchMarker m.toList = false) :
    sendSignal signalName o = true ↔ (o = SignalOutcome.ok ∨ o = SignalOutcome.esrch) := by
  cases o with
  | ok => simp [sendSignal, outcomeMessage]
  | esrch =>
    have hmark : hasSubstr esrchMarker ['k', 'i', 'l', 'l', ' ', 'E', 'S', 'R', 'C', 'H'] = true := by
      decide
    simp [sendSignal, outcomeMessage, hmark]
  | eperm =>
    have hmark : hasSubstr esrchMarker ['k', 'i', 'l', 'l', ' ', 'E', 'P', 'E', 'R', 'M'] = false := by
      decide
    simp [sendSignal, outcomeMessage, hmark]
  | otherErr m =>
    have hmark := h m rfl
    simp only [String.toList] at hmark
    simp [sendSignal, outcomeMessage, hmark]

-- ─── Claim C1: subtree kill is bottom-up and exhaustive ─────────────

/-- C1: for every snapshot whose parent links are acyclic (witnessed by a
rank that drops from parent to child) and every target pid,
`terminateSubtree` with confirmation disabled signals, in this order, the
reversed descendant closure and then the target itself; every descendant
of the target per the children-by-parent index is in the closure and is
signalled before the target; at every point of the signal trace all
children of the signalled pid have already been signalled (strict
bottom-up order); every member of the closure is attempted no matter what
the individual signal outcomes are (the trace does not depend on `sig`);
and the aggregate result is `true` iff every individual signal succeeded
or found its target already exited. -/
theorem terminateSubtree_bottom_up (snap : ProcessSnapshot) (pid : Int)
    (sig : Int → SignalOutcome) (rank : Int → Nat)
    (hrank : IsRanking (childrenOf snap.childrenByPpid) rank)
    (hsig : ∀ p m, sig p = SignalOutcome.otherErr m → hasSubstr esrchMarker m.toList = false) :
    ∃ fuel ds tr ok,
      getDescendants pid snap fuel = some ds ∧
      terminateSubtree pid snap sig fuel = some (tr, ok) ∧
      tr = ds.reverse ++ [pid] ∧
      (∀ c, Descendant (childrenOf snap.childrenByPpid) pid c → c ∈ ds) ∧
      (∀ l1 p l2, tr = l1 ++ p :: l2 → ∀ c ∈ childrenOf snap.childrenByPpid p, c ∈ l1) ∧
      (ok = true ↔ ∀ p ∈ tr, sig p = SignalOutcome.ok ∨ sig p = SignalOutcome.esrch) := by
  obtain ⟨ds, hds⟩ := descLoop_terminates (childrenOf snap.childrenByPpid) rank hrank
    (stackWeight (childrenOf snap.childrenByPpid) rank [pid]) [pid] [] le_rfl
  have hgd : getDescendants pid snap
      (stackWeight (childrenOf snap.childrenByPpid) rank [pid]) = some ds := hds
  have hcc := getDescendants_childClosed pid snap _ ds hgd
  have hterm : terminateSubtree pid snap sig
      (stackWeight (childrenOf snap.childrenByPpid) rank [pid])
      = some (ds.reverse ++ [pid],
          (ds.reverse ++ [pid]).all (fun p => sendSignal "SIGTERM" (sig p))) := by
    simp only [terminateSubtree, hgd]
    rw [foldl_killStep]
    simp only [killStep, List.nil_append, Bool.true_and, List.all_append, List.all_cons,
      List.all_nil, Bool.and_true]
  refine ⟨_, ds, ds.reverse ++ [pid],
    (ds.reverse ++ [pid]).all (fun p => sendSignal "SIGTERM" (sig p)),
    hgd, hterm, rfl, getDescendants_complete pid snap _ ds hgd, ?_, ?_⟩
  · intro l1 p l2 hsplit
    rcases List.eq_nil_or_concat l2 with rfl | ⟨ltail, a, rfl⟩
    · have hinj := List.append_inj' hsplit.symm (by rfl)
      obtain ⟨h1, h2⟩ := hinj
      have hp : p = pid := by simpa using h2
      intro c hc
      rw [hp] at hc
      rw [h1]
      exact List.mem_reverse.mpr (getDescendants_root_children pid snap _ ds hgd c hc)
    · have hsplit2 : (ds.reverse ++ [pid] : List Int) = (l1 ++ p :: ltail) ++ [a] := by
        rw [hsplit]
        simp
      have hinj := List.append_inj' hsplit2 (by rfl)
      obtain ⟨h1, -⟩ := hinj
      have hds2 : ds = ltail.reverse ++ p :: l1.reverse := by
        have : ds = (l1 ++ p :: ltail).reverse := by
          rw [← h1, List.reverse_reverse]
        rw [this]
        simp
      intro c hc
      exact List.mem_reverse.mp (hcc ltail.reverse p l1.reverse hds2 c hc)
  · rw [List.all_eq_true]
    constructor
    · intro hall p hp
      exact (sendSignal_eq_true_iff "SIGTERM" (sig p) (hsig p)).mp (hall p hp)
    · intro hall p hp
      exact (sendSignal_eq_true_iff "SIGTERM" (sig p) (hsig p)).mpr (hall p hp)

-- ─── Concrete snapshots for witnesses and counterexamples ───────────

/-- A process record with the given pid and parent pid (other fields fixed). -/
def chainProc (pid ppid : Int) : ProcessInfo :=
  { pid := pid, ppid := ppid, pgid := pid, user := "me", cpu := 0, rss := 0,
    etime := "00:01", etimeSeconds := 1, command := "p", args := "p" }

/-- The synthetic parent-child chain 1 ← 2 ← 3 ← 4 from the spec. -/
def chainSnap : ProcessSnapshot :=
  buildSnapshot 0 [chainProc 1 0, chainProc 2 1, chainProc 3 2, chainProc 4 3]

/-- A snapshot whose single record is its own parent, making the
children-by-ppid index cyclic. -/
def cyclicSnap : ProcessSnapshot :=
  buildSnapshot 0 [chainProc 1 1]

/-- A rank on a finite children index follows from checking its entries. -/
theorem ranking_of_entries (m : List (Int × List Int)) (rank : Int → Nat)
    (h : ∀ kv ∈ m, ∀ c ∈ kv.2, rank c < rank kv.1) :
    IsRanking (childrenOf m) rank := by
  intro p c hc
  unfold childrenOf alistGet at hc
  cases hfind : m.find? (fun kv => decide (kv.1 = p)) with
  | none => rw [hfind] at hc; simp at hc
  | some kv =>
    rw [hfind] at hc
    have hc2 : c ∈ kv.2 := by simpa using hc
    have hmem := List.mem_of_find?_eq_some hfind
    have hkey : kv.1 = p := by
      have := List.find?_some hfind
      simpa using this
    have hlt := h kv hmem c hc2
    rw [hkey] at hlt
    exact hlt

/-- C1 witness: instantiation on the chain 1 ← 2 ← 3 ← 4 with every signal
succeeding. -/
theorem terminateSubtree_bottom_up_witness :
    ∃ fuel ds tr ok,
      getDescendants 1 chainSnap fuel = some ds ∧
      terminateSubtree 1 chainSnap (fun _ => SignalOutcome.ok) fuel = some (tr, ok) ∧
      tr = ds.reverse ++ [1] ∧
      (∀ c, Descendant (childrenOf chainSnap.childrenByPpid) 1 c → c ∈ ds) ∧
      (∀ l1 p l2, tr = l1 ++ p :: l2 → ∀ c ∈ childrenOf chainSnap.childrenByPpid p, c ∈ l1) ∧
      (ok = true ↔ ∀ p ∈ tr,
        SignalOutcome.ok = SignalOutcome.ok ∨ SignalOutcome.ok = SignalOutcome.esrch) :=
  terminateSubtree_bottom_up chainSnap 1 (fun _ => SignalOutcome.ok) (fun p => (5 - p).toNat)
    (ranking_of_entries _ _ (by decide))
    (fun _ m hm => by cases hm)

-- ─── Claim C2: termination of the descendant traversal ──────────────

/-- C2 counterexample: on the snapshot whose single record lists itself as
its parent, the `getDescendants` loop never finishes — no iteration bound
makes it produce a result — so the traversal is not cycle-safe for every
snapshot. -/
theorem getDescendants_cycle_diverges :
    ¬ ∃ fuel out, getDescendants 1 cyclicSnap fuel = some out := by
  have hch : childrenOf cyclicSnap.childrenByPpid 1 = [1] := by decide
  have key : ∀ (fuel : Nat) (res : List Int),
      descLoop (childrenOf cyclicSnap.childrenByPpid) fuel [1] res = none := by
    intro fuel
    induction fuel with
    | zero => intro res; rfl
    | succ n ih =>
      intro res
      rw [descLoop, hch]
      simpa using ih (res ++ [1])
  rintro ⟨fuel, out, h⟩
  rw [getDescendants, key fuel []] at h
  cases h

/-- C2 amended: for every snapshot whose children-by-parent index is
acyclic — witnessed by a rank that drops from parent to child, which every
live OS process table admits — and every pid, the `getDescendants`
traversal terminates with a finite descendant list. -/
theorem getDescendants_terminates_of_acyclic (pid : Int) (snap : ProcessSnapshot)
    (rank : Int → Nat) (hrank : IsRanking (childrenOf snap.childrenByPpid) rank) :
    ∃ fuel ds, getDescendants pid snap fuel = some ds := by
  obtain ⟨ds, hds⟩ := descLoop_terminates (childrenOf snap.childrenByPpid) rank hrank
    (stackWeight (childrenOf snap.childrenByPpid) rank [pid]) [pid] [] le_rfl
  exact ⟨_, ds, hds⟩

/-- C2 witness: the traversal terminates on the acyclic chain snapshot. -/
theorem getDescendants_terminates_witness :
    ∃ fuel ds, getDescendants 1 chainSnap fuel = some ds :=
  getDescendants_terminates_of_acyclic 1 chainSnap (fun p => (5 - p).toNat)
    (ranking_of_entries _ _ (by decide))

-- ─── Claim C3: single-pid kill classification ───────────────────────

/-- C3: a single-pid kill with confirmation disabled (terminatePid and
forceKillPid, both through sendSignal) returns `true` exactly when the OS
call succeeds or fails with a no-such-process (ESRCH) error, and `false`
on permission-denied (EPERM) or any other error (whose message, as for
every errno but ESRCH, does not contain the ESRCH marker). -/
theorem single_kill_signal_classification (o : SignalOutcome)
    (hother : ∀ m, o = SignalOutcome.otherErr m → hasSubstr esrchMarker m.toList = false) :
    (terminatePid o = true ↔ (o = SignalOutcome.ok ∨ o = SignalOutcome.esrch)) ∧
    (forceKillPid o = true ↔ (o = SignalOutcome.ok ∨ o = SignalOutcome.esrch)) :=
  ⟨sendSignal_eq_true_iff "SIGTERM" o hother, sendSignal_eq_true_iff "SIGKILL" o hother⟩

/-- C3 witness: permission denied yields failure, already-exited yields
success. -/
theorem single_kill_signal_classification_witness :
    terminatePid SignalOutcome.eperm = false ∧ forceKillPid SignalOutcome.esrch = true := by
  constructor
  · cases hb : terminatePid SignalOutcome.eperm with
    | false => rfl
    | true =>
      rcases (single_kill_signal_classification SignalOutcome.eperm
        (fun m hm => by cases hm)).1.mp hb with h | h <;> cases h
  · exact (single_kill_signal_classification SignalOutcome.esrch
      (fun m hm => by cases hm)).2.mpr (Or.inr rfl)

-- ─── processTreeProvider.ts: visibility filtering ───────────────────

/-- The fixed allow-list of system account names. -/
def systemUsers : List String :=
  ["root", "daemon", "nobody", "sys", "bin", "mail",
   "_windowserver", "_coreaudiod", "_spotlight", "_locationd",
   "_hidd", "_distnoted", "_nsurlsessiond", "_displaypolicyd"]

/-- `ProcessTreeProvider.isSystemUser`: member of the fixed list, or any
name beginning with an underscore. -/
def isSystemUser (user : String) : Bool :=
  systemUsers.contains user || leadsWith ['_'] user.toList

/-- `ProcessTreeProvider.isVisible` with the provider's two filter flags
and current user passed explicitly. -/
def isVisible (showSystemProcesses showOtherUsers : Bool) (currentUser : String)
    (p : ProcessInfo) : Bool :=
  if !showOtherUsers && decide (p.user ≠ currentUser) then false
  else if !showSystemProcesses && isSystemUser p.user then false
  else true

-- ─── Claim C5: the visibility predicate ─────────────────────────────

/-- C5: a record is visible iff (its owner equals the invoking user OR
show-other-users is enabled) AND (its owner is not a recognized system
account — fixed list or leading underscore — OR show-system-processes is
enabled). -/
theorem isVisible_iff_filter_flags (ssp sou : Bool) (u : String) (p : ProcessInfo) :
    isVisible ssp sou u p
      = ((decide (p.user = u) || sou)
          && (!(systemUsers.contains p.user || leadsWith ['_'] p.user.toList) || ssp)) := by
  unfold isVisible isSystemUser
  cases sou <;> cases ssp <;> by_cases hu : p.user = u <;>
    cases hs : (systemUsers.contains p.user || leadsWith ['_'] p.user.toList) <;>
      simp [hu, hs]

-- ─── Claim C4: system-owned records and the two flags ───────────────

/-- A system-owned record used in counterexamples and witnesses. -/
def rootOwnedProc : ProcessInfo :=
  { pid := 9, ppid := 1, pgid := 9, user := "root", cpu := 0, rss := 0,
    etime := "10", etimeSeconds := 10, command := "sysd", args := "/sbin/sysd" }

/-- C4 counterexample: a record owned by the system account `root` is
excluded even though show-system-processes is true, because the invoking
user is someone else and show-other-users is false — visibility of a
system-owned record is not independent of the show-other-users flag. -/
theorem system_visibility_depends_on_other_users_flag :
    isSystemUser rootOwnedProc.user = true ∧
      isVisible true false "me" rootOwnedProc = false := by decide

/-- C4 amended: a record owned by a recognized system account is excluded
whenever show-system-processes is false (for any show-other-users value);
when show-system-processes is true it is included iff its owner equals the
invoking user or show-other-users is enabled. -/
theorem system_visibility_amended (sou : Bool) (u : String) (p : ProcessInfo)
    (hsys : isSystemUser p.user = true) :
    isVisible false sou u p = false ∧
      (isVisible true sou u p = true ↔ (p.user = u ∨ sou = true)) := by
  constructor
  · cases sou <;> by_cases hu : p.user = u
    · have hsysu : isSystemUser u = true := hu ▸ hsys
      simp [isVisible, hu, hsysu]
    · simp [isVisible, hu, hsys]
    · have hsysu : isSystemUser u = true := hu ▸ hsys
      simp [isVisible, hu, hsysu]
    · simp [isVisible, hu, hsys]
  · cases sou <;> by_cases hu : p.user = u
    · have hsysu : isSystemUser u = true := hu ▸ hsys
      simp [isVisible, hu, hsysu]
    · simp [isVisible, hu, hsys]
    · have hsysu : isSystemUser u = true := hu ▸ hsys
      simp [isVisible, hu, hsysu]
    · simp [isVisible, hu, hsys]

/-- C4 witness: the amended statement at the root-owned record with the
invoking user being root and show-other-users disabled. -/
theorem system_visibility_amended_witness :
    isVisible false false "root" rootOwnedProc = false ∧
      (isVisible true false "root" rootOwnedProc = true ↔
        (rootOwnedProc.user = "root" ∨ false = true)) :=
  system_visibility_amended false "root" rootOwnedProc (by decide)

-- ─── processTreeProvider.ts: path trie ──────────────────────────────

/-- The internal trie node of the tree provider: path segment, full path
prefix, child folders keyed by segment, directly attached processes, and
the memoized aggregate count/cpu/rss. -/
inductive Trie where
  | node (segment : String) (fullPath : String) (children : List (String × Trie))
      (processes : List ProcessInfo) (totalCount : Nat) (totalCpu : Rat) (totalRss : Int)

def Trie.segment : Trie → String
  | .node s _ _ _ _ _ _ => s

def Trie.fullPath : Trie → String
  | .node _ f _ _ _ _ _ => f

def Trie.children : Trie → List (String × Trie)
  | .node _ _ ch _ _ _ _ => ch

def Trie.processes : Trie → List ProcessInfo
  | .node _ _ _ ps _ _ _ => ps

def Trie.totalCount : Trie → Nat
  | .node _ _ _ _ n _ _ => n

def Trie.totalCpu : Trie → Rat
  | .node _ _ _ _ _ c _ => c

def Trie.totalRss : Trie → Int
  | .node _ _ _ _ _ _ r => r

/-- `createTrieNode`: a fresh node with empty children, processes, totals. -/
def createTrieNode (segment fullPath : String) : Trie :=
  .node segment fullPath [] [] 0 0 0

/-- `getPathSegments`: first whitespace-delimited token of the full command
line (falling back to the short name), stripped of one leading slash and
split into non-empty path segments; the short name is the single synthetic
segment when nothing remains. -/
def getPathSegments (p : ProcessInfo) : List String :=
  let firstTok := String.mk (p.args.toList.takeWhile (fun c => !(isJsSpace c)))
  let cmdPath := if firstTok = "" then p.command else firstTok
  let stripped :=
    match cmdPath.toList with
    | '/' :: t => t
    | cs => cs
  let segments := ((splitOnChar '/' stripped).filter (fun s => !s.isEmpty)).map String.mk
  if segments.isEmpty then [p.command] else segments

/-- The walk of `buildTrie`'s inner loop: descend along the folder
segments, creating missing nodes, and attach the process at the deepest
folder. -/
def trieInsert : Trie → List String → ProcessInfo → Trie
  | .node seg fp ch procs cnt cpu rss, [], p => .node seg fp ch (procs ++ [p]) cnt cpu rss
  | .node seg fp ch procs cnt cpu rss, s :: restSegs, p =>
    let child :=
      match alistGet ch s with
      | some c => c
      | none => createTrieNode s (if fp = "" then s else fp ++ "/" ++ s)
    .node seg fp (alistSet ch s (trieInsert child restSegs p)) procs cnt cpu rss

mutual
/-- `computeTotals`: bottom-up recursive count and cpu/rss sums. -/
def computeTotals : Trie → Trie
  | .node seg fp ch procs _ _ _ =>
    let newCh := computeTotalsList ch
    let cnt := procs.length + (newCh.map (fun kc => kc.2.totalCount)).sum
    let cpu := (procs.map (fun p => p.cpu)).sum + (newCh.map (fun kc => kc.2.totalCpu)).sum
    let rss := (procs.map (fun p => p.rss)).sum + (newCh.map (fun kc => kc.2.totalRss)).sum
    .node seg fp newCh procs cnt cpu rss
/-- `computeTotals` mapped over a children list. -/
def computeTotalsList : List (String × Trie) → List (String × Trie)
  | [] => []
  | (k, c) :: rest => (k, computeTotals c) :: computeTotalsList rest
end

/-- `buildTrie`: insert every process under its folder segments, then run
the aggregation pass. -/
def buildTrie (processes : List ProcessInfo) : Trie :=
  let root := processes.foldl (fun t p =>
    let segments := getPathSegments p
    let folderSegments := if segments.length > 1 then segments.dropLast else []
    trieInsert t folderSegments p) (createTrieNode "" "")
  computeTotals root

mutual
/-- `collapseChains`: after collapsing the children, a node with exactly
one child folder, no direct processes, and a non-empty segment is merged
with that child (displayed segment `parent/child`, subtree absorbed). -/
def collapseChains : Trie → Trie
  | .node seg fp ch procs cnt cpu rss =>
    let newCh := collapseChildren ch
    match newCh with
    | [(k, only)] =>
      if procs.isEmpty ∧ seg ≠ "" then
        .node (seg ++ "/" ++ only.segment) only.fullPath only.children only.processes
          only.totalCount only.totalCpu only.totalRss
      else .node seg fp [(k, only)] procs cnt cpu rss
    | other => .node seg fp other procs cnt cpu rss
/-- `collapseChains` mapped over a children list. -/
def collapseChildren : List (String × Trie) → List (String × Trie)
  | [] => []
  | (k, c) :: rest => (k, collapseChains c) :: collapseChildren rest
end

-- ─── Claim C9: building and collapsing the example trie ─────────────

/-- The process with command line /System/Library/Frameworks/A. -/
def procA : ProcessInfo :=
  { pid := 101, ppid := 1, pgid := 101, user := "me", cpu := 5, rss := 150,
    etime := "01:00", etimeSeconds := 60, command := "A", args := "/System/Library/Frameworks/A" }

/-- The process with command line /System/Library/Frameworks/B. -/
def procB : ProcessInfo :=
  { pid := 102, ppid := 1, pgid := 102, user := "me", cpu := 7, rss := 250,
    etime := "02:00", etimeSeconds := 120, command := "B", args := "/System/Library/Frameworks/B" }

/-- The process with command line /usr/bin/C. -/
def procC : ProcessInfo :=
  { pid := 103, ppid := 1, pgid := 103, user := "me", cpu := 2, rss := 80,
    etime := "03:00", etimeSeconds := 180, command := "C", args := "/usr/bin/C" }

/-- C9: building and collapsing the trie over the three processes yields a
root with exactly two child folders — one displayed as
System/Library/Frameworks holding the first two processes with aggregate
cpu equal to the sum of their cpu values, and one displayed as usr/bin
holding the third — and no intermediate folder with exactly one child
folder and no directly attached processes remains. -/
theorem collapse_two_top_folders :
    collapseChains (buildTrie [procA, procB, procC])
      = Trie.node "" ""
          [("System", Trie.node "System/Library/Frameworks" "System/Library/Frameworks" []
              [procA, procB] 2 (procA.cpu + procB.cpu) (procA.rss + procB.rss)),
           ("usr", Trie.node "usr/bin" "usr/bin" [] [procC] 1 procC.cpu procC.rss)]
          [] 3 (procA.cpu + procB.cpu + procC.cpu) (procA.rss + procB.rss + procC.rss) := by
  have h0 : buildTrie [procA, procB, procC]
      = Trie.node "" ""
          [("System", Trie.node "System" "System"
              [("Library", Trie.node "Library" "System/Library"
                  [("Frameworks", Trie.node "Frameworks" "System/Library/Frameworks" []
                      [procA, procB] 2 12 400)] [] 2 12 400)] [] 2 12 400),
           ("usr", Trie.node "usr" "usr"
              [("bin", Trie.node "bin" "usr/bin" [] [procC] 1 2 80)] [] 1 2 80)]
          [] 3 14 480 := by
    simp only [buildTrie, getPathSegments, procA, procB, procC, trieInsert, createTrieNode,
      alistGet, alistSet, computeTotals, computeTotalsList, splitOnChar, isJsSpace,
      Trie.segment, Trie.fullPath, Trie.children, Trie.processes, Trie.totalCount,
      Trie.totalCpu, Trie.totalRss, List.foldl, List.map, List.sum, List.length, List.filter]
    norm_num
    decide
  rw [h0]
  simp [collapseChains, collapseChildren, Trie.segment, Trie.fullPath, Trie.children,
    Trie.processes, Trie.totalCount, Trie.totalCpu, Trie.totalRss, procA, procB, procC]
  norm_num

-- ─── sfxManager.ts (ProcessPoller): parseLine ───────────────────────

/-- The fixed-count tokenizer of `ProcessPoller.parseLine`: read `n`
space-delimited fields from the left (skip spaces, read a non-space run,
fail when a field is empty) and return the fields with the unconsumed
remainder of the line. -/
def takeFields : Nat → List Char → Option (List (List Char) × List Char)
  | 0, cs => some ([], cs)
  | n + 1, cs =>
    let cs1 := cs.dropWhile (fun c => decide (c = ' '))
    let tok := cs1.takeWhile (fun c => !decide (c = ' '))
    if tok.isEmpty then none
    else
      match takeFields n (cs1.dropWhile (fun c => !decide (c = ' '))) with
      | some (toks, rest) => some (tok :: toks, rest)
      | none => none

/-- `ProcessPoller.parseLine`: parse one (already trimmed) `ps` output
line; 8 fixed fields, the args column is the remainder of the line or,
when nothing remains, the comm field; `none` when a field is missing or
pid/ppid/pgid fail to parse. -/
def parseLine (line : String) : Option ProcessInfo :=
  match takeFields 8 line.toList with
  | none => none
  | some (parts, restAfter) =>
    match parts with
    | [p0, p1, p2, p3, p4, p5, p6, p7] =>
      let restArgs := restAfter.dropWhile (fun c => decide (c = ' '))
      let argsStr := if restArgs.isEmpty then String.mk p7 else String.mk restArgs
      match jsParseInt (String.mk p0), jsParseInt (String.mk p1), jsParseInt (String.mk p2) with
      | some pid, some ppid, some pgid =>
        some { pid := pid, ppid := ppid, pgid := pgid,
               user := String.mk p3,
               cpu := jsParseFloatOr0 (String.mk p4),
               rss := jsParseIntOr0 (String.mk p5),
               etime := String.mk p6,
               etimeSeconds := parseEtime (String.mk p6),
               command := String.mk p7,
               args := argsStr }
      | _, _, _ => none
    | _ => none

/-- A line made of a first token followed by gap-separated further tokens. -/
def joinGapped : List Char → List (Nat × List Char) → List Char
  | t0, [] => t0
  | t0, (g, t) :: rest => t0 ++ List.replicate g ' ' ++ joinGapped t rest

theorem takeFields_succ (n : Nat) (cs : List Char) :
    takeFields (n + 1) cs =
      (if ((cs.dropWhile (fun c => decide (c = ' '))).takeWhile
            (fun c => !decide (c = ' '))).isEmpty then none
       else
         match takeFields n ((cs.dropWhile (fun c => decide (c = ' '))).dropWhile
             (fun c => !decide (c = ' '))) with
         | some (toks, rest) =>
           some ((cs.dropWhile (fun c => decide (c = ' '))).takeWhile
             (fun c => !decide (c = ' ')) :: toks, rest)
         | none => none) := rfl

theorem splitTok_append (tok rest : List Char) (hns : ∀ c ∈ tok, c ≠ ' ')
    (h : rest = [] ∨ ∃ t, rest = ' ' :: t) :
    (tok ++ rest).takeWhile (fun c => !decide (c = ' ')) = tok ∧
      (tok ++ rest).dropWhile (fun c => !decide (c = ' ')) = rest := by
  induction tok with
  | nil =>
    rcases h with rfl | ⟨t, rfl⟩
    · exact ⟨rfl, rfl⟩
    · simp [List.takeWhile_cons, List.dropWhile_cons]
  | cons a t ih =>
    have ha : a ≠ ' ' := hns a (List.mem_cons_self _ _)
    have ih2 := ih (fun c hc => hns c (List.mem_cons_of_mem _ hc))
    simp only [List.cons_append, List.takeWhile_cons, List.dropWhile_cons]
    simp [ha, ih2.1, ih2.2]

theorem dropSpaces_replicate (g : Nat) (cs : List Char) :
    (List.replicate g ' ' ++ cs).dropWhile (fun c => decide (c = ' '))
      = cs.dropWhile (fun c => decide (c = ' ')) := by
  induction g with
  | zero => rfl
  | succ k ih => simp [List.replicate_succ, List.dropWhile_cons, ih]

theorem dropSpaces_of_head (a : Char) (t : List Char) (ha : a ≠ ' ') :
    (a :: t).dropWhile (fun c => decide (c = ' ')) = a :: t := by
  simp [List.dropWhile_cons, ha]

theorem takeFields_skip_spaces (n g : Nat) (cs : List Char) :
    takeFields (n + 1) (List.replicate g ' ' ++ cs) = takeFields (n + 1) cs := by
  rw [takeFields_succ, takeFields_succ]
  simp only [dropSpaces_replicate]

theorem takeFields_joinGapped :
    ∀ (rest : List (Nat × List Char)) (t0 : List Char), t0 ≠ [] → (∀ c ∈ t0, c ≠ ' ') →
      (∀ gt ∈ rest, 1 ≤ gt.1 ∧ gt.2 ≠ [] ∧ ∀ c ∈ gt.2, c ≠ ' ') →
      takeFields (rest.length + 1) (joinGapped t0 rest)
        = some (t0 :: rest.map (fun gt => gt.2), []) := by
  intro rest
  induction rest with
  | nil =>
    intro t0 hne hns _
    obtain ⟨a, t, rfl⟩ : ∃ a t, t0 = a :: t := by
      cases t0 with
      | nil => exact absurd rfl hne
      | cons a t => exact ⟨a, t, rfl⟩
    have ha : a ≠ ' ' := hns a (List.mem_cons_self _ _)
    have hsplit := splitTok_append (a :: t) [] hns (Or.inl rfl)
    simp only [List.append_nil] at hsplit
    have hj : joinGapped (a :: t) [] = a :: t := rfl
    rw [hj, takeFields_succ, dropSpaces_of_head a t ha, hsplit.1, hsplit.2]
    rfl
  | cons gt rr ih =>
    intro t0 hne hns hrest
    obtain ⟨g, t1⟩ := gt
    obtain ⟨a, t, rfl⟩ : ∃ a t, t0 = a :: t := by
      cases t0 with
      | nil => exact absurd rfl hne
      | cons a t => exact ⟨a, t, rfl⟩
    have ha : a ≠ ' ' := hns a (List.mem_cons_self _ _)
    have hg : 1 ≤ g := (hrest (g, t1) (List.mem_cons_self _ _)).1
    obtain ⟨g1, rfl⟩ : ∃ g1, g = g1 + 1 := ⟨g - 1, by omega⟩
    have hsplit := splitTok_append (a :: t)
      (List.replicate (g1 + 1) ' ' ++ joinGapped t1 rr) hns
      (Or.inr ⟨List.replicate g1 ' ' ++ joinGapped t1 rr, by simp [List.replicate_succ]⟩)
    have hjoin : joinGapped (a :: t) ((g1 + 1, t1) :: rr)
        = (a :: t) ++ (List.replicate (g1 + 1) ' ' ++ joinGapped t1 rr) := by
      simp [joinGapped]
    have hlen : (((g1 + 1, t1) :: rr).length + 1) = (rr.length + 1) + 1 := by simp
    rw [hlen, hjoin, takeFields_succ]
    have hhead : ((a :: t) ++ (List.replicate (g1 + 1) ' ' ++ joinGapped t1 rr)).dropWhile
        (fun c => decide (c = ' '))
        = (a :: t) ++ (List.replicate (g1 + 1) ' ' ++ joinGapped t1 rr) := by
      rw [List.cons_append]
      exact dropSpaces_of_head a _ ha
    rw [hhead, hsplit.1, hsplit.2,
      takeFields_skip_spaces rr.length (g1 + 1) (joinGapped t1 rr),
      ih t1 (hrest (g1 + 1, t1) (List.mem_cons_self _ _)).2.1
        (hrest (g1 + 1, t1) (List.mem_cons_self _ _)).2.2
        (fun x hx => hrest x (List.mem_cons_of_mem _ hx))]
    rfl

-- ─── Claim C10: eight-token lines keep the comm name as args ────────

/-- C10: every trimmed line of exactly eight space-delimited tokens whose
pid, ppid and pgid tokens parse as integers is accepted by the poller's
line parser, and the resulting record's full-command-line field (args)
equals the eighth token — the short command name — and is never the empty
string, so such a record is grouped by its command name in the path trie. -/
theorem parseLine_comm_args_fallback
    (t0 t1 t2 t3 t4 t5 t6 t7 : List Char) (g1 g2 g3 g4 g5 g6 g7 : Nat)
    (htoks : ∀ t ∈ [t0, t1, t2, t3, t4, t5, t6, t7], t ≠ [] ∧ ∀ c ∈ t, c ≠ ' ')
    (hgaps : ∀ g ∈ [g1, g2, g3, g4, g5, g6, g7], 1 ≤ g)
    (hpid : (jsParseInt (String.mk t0)).isSome = true)
    (hppid : (jsParseInt (String.mk t1)).isSome = true)
    (hpgid : (jsParseInt (String.mk t2)).isSome = true) :
    ∃ info, parseLine (String.mk (joinGapped t0
        [(g1, t1), (g2, t2), (g3, t3), (g4, t4), (g5, t5), (g6, t6), (g7, t7)])) = some info ∧
      info.args = String.mk t7 ∧ info.command = String.mk t7 ∧ info.args ≠ "" := by
  have hentries : ∀ gt ∈ [(g1, t1), (g2, t2), (g3, t3), (g4, t4), (g5, t5), (g6, t6), (g7, t7)],
      1 ≤ (gt : Nat × List Char).1 ∧ gt.2 ≠ [] ∧ ∀ c ∈ gt.2, c ≠ ' ' := by
    intro gt hgt
    simp only [List.mem_cons, List.not_mem_nil, or_false] at hgt
    rcases hgt with rfl | rfl | rfl | rfl | rfl | rfl | rfl
    · exact ⟨hgaps g1 (by simp), (htoks t1 (by simp)).1, (htoks t1 (by simp)).2⟩
    · exact ⟨hgaps g2 (by simp), (htoks t2 (by simp)).1, (htoks t2 (by simp)).2⟩
    · exact ⟨hgaps g3 (by simp), (htoks t3 (by simp)).1, (htoks t3 (by simp)).2⟩
    · exact ⟨hgaps g4 (by simp), (htoks t4 (by simp)).1, (htoks t4 (by simp)).2⟩
    · exact ⟨hgaps g5 (by simp), (htoks t5 (by simp)).1, (htoks t5 (by simp)).2⟩
    · exact ⟨hgaps g6 (by simp), (htoks t6 (by simp)).1, (htoks t6 (by simp)).2⟩
    · exact ⟨hgaps g7 (by simp), (htoks t7 (by simp)).1, (htoks t7 (by simp)).2⟩
  have hfields := takeFields_joinGapped
    [(g1, t1), (g2, t2), (g3, t3), (g4, t4), (g5, t5), (g6, t6), (g7, t7)] t0
    (htoks t0 (by simp)).1 (htoks t0 (by simp)).2 hentries
  have hfields8 : takeFields 8 (joinGapped t0
      [(g1, t1), (g2, t2), (g3, t3), (g4, t4), (g5, t5), (g6, t6), (g7, t7)])
      = some ([t0, t1, t2, t3, t4, t5, t6, t7], []) := by
    simpa using hfields
  obtain ⟨v0, hv0⟩ := Option.isSome_iff_exists.mp hpid
  obtain ⟨v1, hv1⟩ := Option.isSome_iff_exists.mp hppid
  obtain ⟨v2, hv2⟩ := Option.isSome_iff_exists.mp hpgid
  have hne7 : String.mk t7 ≠ "" := by
    intro hcon
    apply (htoks t7 (by simp)).1
    have hdata := congrArg String.data hcon
    simpa using hdata
  refine ⟨{ pid := v0, ppid := v1, pgid := v2, user := String.mk t3,
            cpu := jsParseFloatOr0 (String.mk t4), rss := jsParseIntOr0 (String.mk t5),
            etime := String.mk t6, etimeSeconds := parseEtime (String.mk t6),
            command := String.mk t7, args := String.mk t7 }, ?_, rfl, rfl, hne7⟩
  simp only [parseLine, String.toList, hfields8, hv0, hv1, hv2, List.dropWhile_nil,
    List.isEmpty_nil, if_true]

/-- C10 witness: the concrete eight-token line
`12 1 12 root 0.5 100 05 bash` parses with args equal to `bash`. -/
theorem parseLine_comm_args_fallback_witness :
    ∃ info, parseLine (String.mk (joinGapped "12".toList
        [(1, "1".toList), (1, "12".toList), (1, "root".toList), (1, "0.5".toList),
         (1, "100".toList), (1, "05".toList), (1, "bash".toList)])) = some info ∧
      info.args = String.mk "bash".toList ∧ info.command = String.mk "bash".toList ∧
      info.args ≠ "" :=
  parseLine_comm_args_fallback "12".toList "1".toList "12".toList "root".toList "0.5".toList
    "100".toList "05".toList "bash".toList 1 1 1 1 1 1 1
    (by decide) (by decide) (by decide) (by decide) (by decide)
